import Mathlib

/-!
# Verification of the Moreton Bay knowledge-library core (`src/myjs.js`)

Shallow embedding of the normalisation and filtering logic of `src/myjs.js`:

* `normaliseRecord` — normalises one raw metadata record,
* `pickLink`        — chooses the outbound link between two candidates,
* `buildCollection` — maps the normaliser over the raw collection
  (the `records` constant of the source),
* `getFilteredRecords` — the query engine.

JavaScript strings are modelled as Lean `String`s.  The JS string built-ins
used by the source (`toLowerCase`, `trim`, `startsWith`, `includes`) are
embedded as executable functions over the underlying character list: `js`
regular-expression whitespace `\s` is the character class `jsWhitespace`,
and the anchored placeholder regular expression
`/^\s*(NA or TBC|N\/A)\s*$/i` is embedded as "strip surrounding `\s`
characters, case-fold, and compare with the two alternatives in their
entirety" (exact, because neither alternative begins or ends with a `\s`
character and `trim`-style stripping cannot eat into them).

A raw record (a JS object parsed from JSON) is an ordered association list
of string keys to string values; JS object keys are unique and iteration
order is insertion order, which the list order represents.
-/

namespace MBK

/-- The JS regular-expression whitespace class `\s` (also what
`String.prototype.trim` strips). -/
def jsWhitespace (c : Char) : Bool :=
  decide (c = ' ' ∨ c = '\t' ∨ c = '\n' ∨ c = '\r' ∨ c = '\x0b' ∨ c = '\x0c' ∨
    c = '\u00A0' ∨ c = '\u1680' ∨ ('\u2000' ≤ c ∧ c ≤ '\u200A') ∨
    c = '\u2028' ∨ c = '\u2029' ∨ c = '\u202F' ∨ c = '\u205F' ∨
    c = '\u3000' ∨ c = '\uFEFF')

/-- Embedding of `String.prototype.toLowerCase` (character-wise case fold). -/
def jsToLower (s : String) : String :=
  ⟨s.data.map Char.toLower⟩

/-- Strip trailing `\s` characters from a character list. -/
def trimRightData (l : List Char) : List Char :=
  (l.reverse.dropWhile jsWhitespace).reverse

/-- Embedding of `String.prototype.trim`: strip leading and trailing `\s`. -/
def jsTrim (s : String) : String :=
  ⟨trimRightData (s.data.dropWhile jsWhitespace)⟩

/-- Boolean test: the first list is a leading segment of the second. -/
def isPrefixB : List Char → List Char → Bool
  | [], _ => true
  | _ :: _, [] => false
  | p :: ps, c :: cs => decide (p = c) && isPrefixB ps cs

/-- Boolean test: the first list occurs contiguously inside the second. -/
def isInfixB (p : List Char) : List Char → Bool
  | [] => isPrefixB p []
  | c :: rest => isPrefixB p (c :: rest) || isInfixB p rest

/-- Embedding of `s.startsWith(pre)` (case-sensitive, no trimming). -/
def jsStartsWith (s pre : String) : Bool :=
  isPrefixB pre.data s.data

/-- Embedding of `s.includes(pat)` (contiguous substring containment). -/
def jsIncludes (s pat : String) : Bool :=
  isInfixB pat.data s.data

/-- Embedding of the JS string-or idiom `a || b`: the empty string is falsy. -/
def jsOr (a b : String) : String :=
  if a = "" then b else a

/-- A raw record: ordered mapping from source field name to value
(`src/myjs.js`: one value of the object parsed from `DataJson`). -/
abbrev RawRecord := List (String × String)

/-- Embedding of the JS property read `rec[key]` (keys are unique in a JS
object; the list holds each key once, first match returned). -/
def lookupRaw (key : String) : RawRecord → Option String
  | [] => none
  | (k, v) :: rest => if k = key then some v else lookupRaw key rest

/-- The field-extraction helper `get` of `normaliseRecord`
(`src/myjs.js` line 10): `(rec[key] ?? "").toString().trim()`. -/
def getField (rec : RawRecord) (key : String) : String :=
  jsTrim ((lookupRaw key rec).getD "")

/-- The keyword-key test of `src/myjs.js` line 14:
`k.toLowerCase().startsWith("keywords")`. -/
def kwPred (k : String) : Bool :=
  jsStartsWith (jsToLower k) "keywords"

/-- `Object.keys(rec)` in iteration order. -/
def keysOf (rec : RawRecord) : List String :=
  rec.map Prod.fst

/-- The anchored placeholder regular expression of `src/myjs.js` line 54,
`/^\s*(NA or TBC|N\/A)\s*$/i`, embedded as strip-`\s`-ends, case-fold,
whole-string comparison with the two alternatives. -/
def placeholderRe (s : String) : Bool :=
  decide (jsToLower (jsTrim s) = "na or tbc") ||
  decide (jsToLower (jsTrim s) = "n/a")

/-- The candidate test `isUrl` inside `pickLink` (`src/myjs.js` lines 51-54).
The `typeof val === "string"` guard always holds here because candidates are
embedded as strings. -/
def isUrl (val : String) : Bool :=
  jsStartsWith val "http" && !placeholderRe val

/-- `pickLink` of `src/myjs.js` lines 50-59. -/
def pickLink (externalRef pointOfContact : String) : String :=
  if isUrl externalRef then externalRef
  else if isUrl pointOfContact then pointOfContact
  else ""

/-- The normalised record shape returned by `normaliseRecord`
(`src/myjs.js` lines 33-44). -/
structure NormalizedRecord where
  id : String
  title : String
  citation : String
  description : String
  timePeriod : String
  category : String
  custodian : String
  keywords : String
  link : String
  raw : RawRecord
  deriving DecidableEq, Repr

/-- `normaliseRecord` of `src/myjs.js` lines 9-45. -/
def normaliseRecord (title : String) (rec : RawRecord) : NormalizedRecord :=
  let kwKey := (keysOf rec).find? kwPred
  let keywords :=
    match kwKey with
    | some k => jsTrim ((lookupRaw k rec).getD "")
    | none => ""
  let description :=
    jsOr (jsOr (getField rec "Description") (getField rec "Detailed Description"))
      (getField rec "Overview Description")
  let timePeriod := getField rec "Time Period of Content"
  let category := getField rec "Data Category"
  let custodian := getField rec "Data Custodian"
  let externalRef := getField rec "External Metadata Reference"
  let pointOfContact := getField rec "Point of Contact"
  let link := pickLink externalRef pointOfContact
  { id := title
    title := title
    citation := getField rec "Citation"
    description := description
    timePeriod := timePeriod
    category := category
    custodian := custodian
    keywords := keywords
    link := link
    raw := rec }

/-- The `records` constant of `src/myjs.js` lines 62-64:
`Object.entries(parsed).map(([title, rec]) => normaliseRecord(title, rec))`. -/
def buildCollection (raw : List (String × RawRecord)) : List NormalizedRecord :=
  raw.map fun p => normaliseRecord p.1 p.2

/-- The search haystack of `getFilteredRecords` (`src/myjs.js` lines 119-128):
the six text fields joined with a single space. -/
def haystackOf (r : NormalizedRecord) : String :=
  r.title ++ " " ++ r.citation ++ " " ++ r.description ++ " " ++ r.keywords ++
    " " ++ r.category ++ " " ++ r.custodian

/-- `getFilteredRecords` of `src/myjs.js` lines 108-132, with the three DOM
inputs (`searchInput.value`, `categoryFilter.value`, `yearFilter.value`) and
the `records` collection passed as parameters.  Truthiness of a JS string is
being non-empty. -/
def getFilteredRecords (records : List NormalizedRecord)
    (query category year : String) : List NormalizedRecord :=
  records.filter fun r =>
    if category ≠ "" ∧ r.category ≠ category then false
    else if year ≠ "" ∧ r.timePeriod ≠ year then false
    else if jsToLower query = "" then true
    else jsIncludes (jsToLower (haystackOf r)) (jsToLower query)

/-- The qualification test of claim C2 with the trimming removed (the
amended claim): a non-empty string that starts — untrimmed — with "http"
and is not a placeholder. -/
def linkQualifies (v : String) : Bool :=
  decide (v ≠ "") && jsStartsWith v "http" && !placeholderRe v

/-- Modelled from the claim (C10): `pickLink` with the placeholder-rejection
clause deleted, so that a candidate qualifies by the bare test
`startsWith("http")`. -/
def pickLinkBare (externalRef pointOfContact : String) : String :=
  if jsStartsWith externalRef "http" then externalRef
  else if jsStartsWith pointOfContact "http" then pointOfContact
  else ""

/-- A concrete record used to instantiate claim C8's theorem. -/
def sampleRec : NormalizedRecord :=
  { id := "Ocean Survey", title := "Ocean Survey", citation := "c",
    description := "d", timePeriod := "2020", category := "Marine",
    custodian := "MBRC", keywords := "k", link := "", raw := [] }

example : pickLink "http://a.org" "anything" = "http://a.org" := by decide
example : pickLink "NA or TBC" "http://b.org" = "http://b.org" := by decide
example : pickLink "N/A" "N/A" = "" := by decide
example : pickLink " http://a.org" "" = "" := by decide
example : jsTrim "  x y  " = "x y" := by decide
example : jsToLower "OcEaN" = "ocean" := by decide
example : jsIncludes "hello world" "lo wo" = true := by decide
example : jsIncludes "hello" "x" = false := by decide
example :
    (normaliseRecord "T" [("Keywords (comma sep)", "x, y"), ("Title", "T")]).keywords
      = "x, y" := by decide

/-! ## Supporting lemmas -/

theorem data_append (s t : String) : (s ++ t).data = s.data ++ t.data := by
  cases s; cases t; rfl

theorem isPrefixB_iff (p l : List Char) :
    isPrefixB p l = true ↔ ∃ t, l = p ++ t := by
  induction p generalizing l with
  | nil => simp [isPrefixB]
  | cons a ps ih =>
    cases l with
    | nil => simp [isPrefixB]
    | cons c cs =>
      simp only [isPrefixB, Bool.and_eq_true, decide_eq_true_eq, ih,
        List.cons_append, List.cons.injEq]
      constructor
      · rintro ⟨rfl, t, rfl⟩
        exact ⟨t, rfl, rfl⟩
      · rintro ⟨t, rfl, rfl⟩
        exact ⟨rfl, t, rfl⟩

theorem isInfixB_iff (p l : List Char) :
    isInfixB p l = true ↔ ∃ l₁ l₂, l = l₁ ++ p ++ l₂ := by
  induction l with
  | nil =>
    simp only [isInfixB, isPrefixB_iff]
    constructor
    · rintro ⟨t, ht⟩
      exact ⟨[], t, by simpa using ht⟩
    · rintro ⟨l₁, l₂, h⟩
      have h1 : l₁ = [] := by
        cases l₁ with
        | nil => rfl
        | cons x xs => simp at h
      subst h1
      exact ⟨l₂, by simpa using h⟩
  | cons c cs ih =>
    simp only [isInfixB, Bool.or_eq_true, isPrefixB_iff, ih]
    constructor
    · rintro (⟨t, ht⟩ | ⟨l₁, l₂, rfl⟩)
      · exact ⟨[], t, by simpa using ht⟩
      · exact ⟨c :: l₁, l₂, by simp⟩
    · rintro ⟨l₁, l₂, h⟩
      cases l₁ with
      | nil =>
        exact Or.inl ⟨l₂, by simpa using h⟩
      | cons x xs =>
        simp only [List.cons_append, List.cons.injEq] at h
        exact Or.inr ⟨xs, l₂, h.2⟩

theorem isInfixB_singleton {a : Char} {l : List Char} (h : a ∈ l) :
    isInfixB [a] l = true := by
  obtain ⟨s, t, rfl⟩ := List.append_of_mem h
  exact (isInfixB_iff _ _).mpr ⟨s, t, by simp⟩

theorem mem_getFilteredRecords
    (recs : List NormalizedRecord) (query category year : String)
    (r : NormalizedRecord) :
    r ∈ getFilteredRecords recs query category year ↔
      r ∈ recs ∧ (category ≠ "" → r.category = category) ∧
        (year ≠ "" → r.timePeriod = year) ∧
        (jsToLower query ≠ "" →
          jsIncludes (jsToLower (haystackOf r)) (jsToLower query) = true) := by
  unfold getFilteredRecords
  rw [List.mem_filter]
  refine and_congr_right fun _ => ?_
  split_ifs with h1 h2 h3
  · simp only [false_iff]
    rintro ⟨hc, -, -⟩
    exact h1.2 (hc h1.1)
  · simp only [false_iff]
    rintro ⟨-, hy, -⟩
    exact h2.2 (hy h2.1)
  · simp only [true_iff]
    refine ⟨fun hc => ?_, fun hy => ?_, fun hq => absurd h3 hq⟩
    · by_contra hxc
      exact h1 ⟨hc, hxc⟩
    · by_contra hxy
      exact h2 ⟨hy, hxy⟩
  · constructor
    · intro hinc
      refine ⟨fun hc => ?_, fun hy => ?_, fun _ => hinc⟩
      · by_contra hxc
        exact h1 ⟨hc, hxc⟩
      · by_contra hxy
        exact h2 ⟨hy, hxy⟩
    · rintro ⟨-, -, hq⟩
      exact hq h3

theorem dropWhile_append_singleton (a : Char) (ha : jsWhitespace a = false)
    (l : List Char) :
    ∃ t, ((l ++ [a]).dropWhile jsWhitespace).reverse = a :: t := by
  induction l with
  | nil => exact ⟨[], by simp [List.dropWhile, ha]⟩
  | cons x xs ih =>
    by_cases hx : jsWhitespace x = true
    · simpa [List.dropWhile, hx] using ih
    · have hx' : jsWhitespace x = false := by simpa using hx
      exact ⟨xs.reverse ++ [x], by simp [List.dropWhile, hx', List.reverse_append]⟩

theorem startsWith_http_data (v : String) (h : jsStartsWith v "http" = true) :
    ∃ rest, v.data = 'h' :: rest := by
  have hh : ("http" : String).data = ['h', 't', 't', 'p'] := rfl
  rw [jsStartsWith, hh] at h
  cases hd : v.data with
  | nil => rw [hd] at h; simp [isPrefixB] at h
  | cons c cs =>
    rw [hd] at h
    simp only [isPrefixB, Bool.and_eq_true, decide_eq_true_eq] at h
    exact ⟨cs, by rw [h.1]⟩

theorem jsTrim_head (v : String) (h : jsStartsWith v "http" = true) :
    ∃ t, (jsTrim v).data = 'h' :: t := by
  obtain ⟨rest, hv⟩ := startsWith_http_data v h
  have hws : jsWhitespace 'h' = false := by decide
  obtain ⟨t, ht⟩ := dropWhile_append_singleton 'h' hws rest.reverse
  refine ⟨t, ?_⟩
  show trimRightData (v.data.dropWhile jsWhitespace) = 'h' :: t
  rw [hv]
  rw [List.dropWhile_cons_of_neg (by simp [hws])]
  show (('h' :: rest).reverse.dropWhile jsWhitespace).reverse = 'h' :: t
  rw [List.reverse_cons]
  exact ht

theorem placeholderRe_false_of_http (v : String)
    (h : jsStartsWith v "http" = true) : placeholderRe v = false := by
  obtain ⟨t, ht⟩ := jsTrim_head v h
  have hlow : (jsToLower (jsTrim v)).data = 'h' :: t.map Char.toLower := by
    show (jsTrim v).data.map Char.toLower = 'h' :: t.map Char.toLower
    rw [ht]
    simp [show Char.toLower 'h' = 'h' from by decide]
  have h1 : jsToLower (jsTrim v) ≠ "na or tbc" := by
    intro he
    have hd := congrArg String.data he
    rw [hlow] at hd
    have hrhs : ("na or tbc" : String).data
        = ['n', 'a', ' ', 'o', 'r', ' ', 't', 'b', 'c'] := rfl
    rw [hrhs] at hd
    simp at hd
  have h2 : jsToLower (jsTrim v) ≠ "n/a" := by
    intro he
    have hd := congrArg String.data he
    rw [hlow] at hd
    have hrhs : ("n/a" : String).data = ['n', '/', 'a'] := rfl
    rw [hrhs] at hd
    simp at hd
  simp [placeholderRe, h1, h2]

theorem isUrl_eq_startsWith (v : String) : isUrl v = jsStartsWith v "http" := by
  rw [isUrl]
  cases h : jsStartsWith v "http" with
  | false => simp
  | true => simp [placeholderRe_false_of_http v h]

theorem linkQualifies_eq_isUrl (v : String) : linkQualifies v = isUrl v := by
  rw [linkQualifies, isUrl]
  by_cases hv : v = ""
  · subst hv; decide
  · simp [hv]

theorem lookupRaw_append_cons (k v : String) (pre post : RawRecord)
    (h : ∀ p ∈ pre, p.1 ≠ k) :
    lookupRaw k (pre ++ (k, v) :: post) = some v := by
  induction pre with
  | nil => simp [lookupRaw]
  | cons a rest ih =>
    obtain ⟨a1, a2⟩ := a
    have ha : a1 ≠ k := h (a1, a2) (by simp)
    simp only [List.cons_append, lookupRaw, if_neg ha]
    exact ih fun p hp => h p (by simp [hp])

theorem find?_keysOf_none (rec : RawRecord)
    (h : ∀ p ∈ rec, kwPred p.1 = false) :
    (keysOf rec).find? kwPred = none := by
  apply List.find?_eq_none.mpr
  intro k hk
  simp only [keysOf, List.mem_map] at hk
  obtain ⟨p, hp, rfl⟩ := hk
  simp [h p hp]

theorem find?_keysOf_some (pre post : RawRecord) (k v : String)
    (hpre : ∀ p ∈ pre, kwPred p.1 = false) (hk : kwPred k = true) :
    (keysOf (pre ++ (k, v) :: post)).find? kwPred = some k := by
  induction pre with
  | nil =>
    simp only [List.nil_append, keysOf, List.map_cons]
    rw [List.find?_cons_of_pos _ hk]
  | cons a rest ih =>
    have ha : kwPred a.1 = false := hpre a (by simp)
    simp only [List.cons_append, keysOf, List.map_cons]
    rw [List.find?_cons_of_neg _ (by simp [ha])]
    exact ih fun p hp => hpre p (by simp [hp])

/-! ## The claims -/

/-- Claim C1: for every collection and filter state, a record is in the
filtered result iff it is in the collection and all three conditions hold as
a conjunction — exact category match when a category is selected, exact
time-period match when a time period is selected, and, when the lower-cased
query is non-empty, the lower-cased space-joined haystack of the six text
fields contains the lower-cased query as a contiguous substring; moreover the
result is a sublist of the collection (original relative order). -/
theorem filter_membership_c1 (recs : List NormalizedRecord)
    (query category year : String) :
    List.Sublist (getFilteredRecords recs query category year) recs ∧
      ∀ r : NormalizedRecord,
        r ∈ getFilteredRecords recs query category year ↔
          r ∈ recs ∧ (category ≠ "" → r.category = category) ∧
            (year ≠ "" → r.timePeriod = year) ∧
            (jsToLower query ≠ "" →
              ∃ l₁ l₂ : List Char,
                (jsToLower (haystackOf r)).data
                  = l₁ ++ (jsToLower query).data ++ l₂) := by
  constructor
  · unfold getFilteredRecords
    exact List.filter_sublist _
  · intro r
    rw [mem_getFilteredRecords]
    simp only [jsIncludes, isInfixB_iff]

/-- Claim C2, counterexample: the claim qualifies a candidate by whether its
*trimmed* text starts with "http", but the code applies `startsWith` to the
untrimmed candidate.  For `primary = " http://a.org"` the claim's
qualification holds (trimmed text starts with "http", non-empty, not a
placeholder), yet `pickLink` does not return the primary: it returns "". -/
theorem resolve_link_c2_counterexample :
    jsStartsWith (jsTrim " http://a.org") "http" = true ∧
      placeholderRe " http://a.org" = false ∧
      " http://a.org" ≠ "" ∧
      pickLink " http://a.org" "" = "" := by decide

/-- Claim C2 (amended): `pickLink` returns the primary candidate if it
qualifies, else the secondary if it qualifies, else the empty string, where
a candidate qualifies iff it is a non-empty string that starts — without any
trimming — with the case-sensitive literal "http" and does not match, case
insensitively and ignoring surrounding whitespace, the placeholder patterns
"NA or TBC" or "N/A" in their entirety. -/
theorem resolve_link_c2_amended (p s : String) :
    (linkQualifies p = true → pickLink p s = p) ∧
      (linkQualifies p = false → linkQualifies s = true → pickLink p s = s) ∧
      (linkQualifies p = false → linkQualifies s = false → pickLink p s = "") := by
  refine ⟨fun h1 => ?_, fun h1 h2 => ?_, fun h1 h2 => ?_⟩ <;>
    rw [linkQualifies_eq_isUrl] at * <;> simp [pickLink, *]

theorem resolve_link_c2_amended_witness :
    pickLink "http://a.org" "anything" = "http://a.org" :=
  (resolve_link_c2_amended "http://a.org" "anything").1 (by decide)

/-- Claim C3: the normaliser resolves the keywords field by scanning the raw
record's keys in iteration order and selecting the first key whose
lower-cased text begins with "keywords", taking that key's (trimmed) value;
if no key qualifies the keywords field is the empty string. -/
theorem keywords_resolution_c3 :
    (∀ (title : String) (rec : RawRecord),
        (∀ p ∈ rec, kwPred p.1 = false) →
          (normaliseRecord title rec).keywords = "") ∧
      ∀ (title : String) (pre post : RawRecord) (k v : String),
        (∀ p ∈ pre, kwPred p.1 = false) → kwPred k = true →
          (normaliseRecord title (pre ++ (k, v) :: post)).keywords = jsTrim v := by
  constructor
  · intro title rec h
    simp [normaliseRecord, find?_keysOf_none rec h]
  · intro title pre post k v hpre hk
    have hfind := find?_keysOf_some pre post k v hpre hk
    have hlook : lookupRaw k (pre ++ (k, v) :: post) = some v :=
      lookupRaw_append_cons k v pre post fun p hp heq =>
        absurd (heq ▸ hpre p hp) (by simp [hk])
    simp [normaliseRecord, hfind, hlook]

theorem keywords_resolution_c3_witness :
    (normaliseRecord "T" [("Keywords (comma sep)", "x, y"), ("Title", "T")]).keywords
      = "x, y" :=
  (keywords_resolution_c3.2 "T" [] [("Title", "T")] "Keywords (comma sep)" "x, y"
      (by simp) (by decide)).trans (by decide)

/-- Claim C4: the normalised description is the first non-empty (after
trimming) value of "Description", then "Detailed Description", then
"Overview Description", in that priority order, and "" when none of the
three is present and non-empty after trim. -/
theorem description_priority_c4 (title : String) (rec : RawRecord) :
    (getField rec "Description" ≠ "" →
        (normaliseRecord title rec).description = getField rec "Description") ∧
      (getField rec "Description" = "" →
        getField rec "Detailed Description" ≠ "" →
          (normaliseRecord title rec).description
            = getField rec "Detailed Description") ∧
      (getField rec "Description" = "" →
        getField rec "Detailed Description" = "" →
          (normaliseRecord title rec).description
            = getField rec "Overview Description") := by
  refine ⟨fun h1 => ?_, fun h1 h2 => ?_, fun h1 h2 => ?_⟩ <;>
    simp [normaliseRecord, jsOr, *]

theorem description_priority_c4_witness :
    (normaliseRecord "T" [("Description", ""), ("Detailed Description", "D2")]).description
      = "D2" :=
  ((description_priority_c4 "T"
        [("Description", ""), ("Detailed Description", "D2")]).2.1
      (by decide) (by decide)).trans (by decide)

/-- Claim C5: `buildCollection` produces exactly one normalised record per
raw entry — the output length equals the raw collection's size — and the
output sequence preserves the raw iteration order: the `i`-th output is the
normalisation of the `i`-th raw entry (so an empty raw collection yields an
empty sequence). -/
theorem build_collection_c5 (raw : List (String × RawRecord)) :
    (buildCollection raw).length = raw.length ∧
      ∀ i : Nat,
        (buildCollection raw)[i]?
          = Option.map (fun p => normaliseRecord p.1 p.2) raw[i]? := by
  refine ⟨by simp [buildCollection], fun i => ?_⟩
  simp [buildCollection]

/-- Claim C6: filtering with the empty filter state (empty query, empty
category, empty time period) returns the entire collection in its original
order; in particular the empty query matches every record. -/
theorem empty_state_identity_c6 (recs : List NormalizedRecord) :
    getFilteredRecords recs "" "" "" = recs := by
  unfold getFilteredRecords
  apply List.filter_eq_self.mpr
  intro r _
  have h0 : jsToLower "" = "" := rfl
  simp [h0]

/-- Claim C7: filtering is idempotent — filtering the filtered result with
the same state yields the same sequence as filtering once. -/
theorem filter_idempotent_c7 (recs : List NormalizedRecord)
    (query category year : String) :
    getFilteredRecords (getFilteredRecords recs query category year)
        query category year
      = getFilteredRecords recs query category year := by
  unfold getFilteredRecords
  rw [List.filter_filter]
  congr 1
  funext r
  rw [Bool.and_self]

/-- Claim C8: a whitespace-only non-empty query is not trimmed before
lower-casing, so it acts as a genuine non-empty filter: with no category or
time-period selection, a record is in the result iff its lower-cased
space-joined haystack contains the whitespace query as a substring. -/
theorem whitespace_query_c8 (query : String) (recs : List NormalizedRecord)
    (r : NormalizedRecord) (hne : query ≠ "")
    (_hws : ∀ c ∈ query.data, jsWhitespace c = true) :
    r ∈ getFilteredRecords recs query "" "" ↔
      r ∈ recs ∧ ∃ l₁ l₂ : List Char,
        (jsToLower (haystackOf r)).data = l₁ ++ (jsToLower query).data ++ l₂ := by
  have hq : jsToLower query ≠ "" := by
    intro h
    apply hne
    have hdata : query.data.map Char.toLower = [] := congrArg String.data h
    have hnil : query.data = [] := by simpa using hdata
    exact String.ext (by simpa using hnil)
  rw [mem_getFilteredRecords]
  simp only [jsIncludes, isInfixB_iff]
  constructor
  · rintro ⟨hr, -, -, h3⟩
    exact ⟨hr, h3 hq⟩
  · rintro ⟨hr, h3⟩
    exact ⟨hr, by simp, by simp, fun _ => h3⟩

theorem whitespace_query_c8_witness :
    sampleRec ∈ getFilteredRecords [sampleRec] "\t" "" "" ↔
      sampleRec ∈ [sampleRec] ∧ ∃ l₁ l₂ : List Char,
        (jsToLower (haystackOf sampleRec)).data
          = l₁ ++ (jsToLower "\t").data ++ l₂ :=
  whitespace_query_c8 "\t" [sampleRec] sampleRec (by decide) (by decide)

/-- Claim C9: with empty category and time-period selections, a query of a
single space character includes every record: the haystack joins the six
text fields with single spaces, so it always contains " " as a substring. -/
theorem space_query_c9 (recs : List NormalizedRecord) :
    getFilteredRecords recs " " "" "" = recs := by
  unfold getFilteredRecords
  apply List.filter_eq_self.mpr
  intro r _
  have h1 : jsToLower " " = " " := by decide
  have hd : (" " : String).data = [' '] := rfl
  have hmem : ' ' ∈ (jsToLower (haystackOf r)).data := by
    have hm : ' ' ∈ (haystackOf r).data := by
      simp [haystackOf, data_append, hd]
    exact List.mem_map.mpr ⟨' ', hm, by decide⟩
  have hinc : isInfixB [' '] (jsToLower (haystackOf r)).data = true :=
    isInfixB_singleton hmem
  have hne : ¬((" " : String) = "") := by decide
  simp [h1, hne, jsIncludes, hd, hinc]

/-- Claim C10: `pickLink`'s candidate-qualification test is equivalent to
the bare `startsWith("http")` test — the whole-string placeholder pattern
can never match a string that starts with "http" — so deleting the
placeholder clause leaves `pickLink` unchanged on all inputs. -/
theorem placeholder_redundant_c10 :
    (∀ v : String, isUrl v = jsStartsWith v "http") ∧
      ∀ p s : String, pickLink p s = pickLinkBare p s := by
  refine ⟨isUrl_eq_startsWith, fun p s => ?_⟩
  simp only [pickLink, pickLinkBare, isUrl_eq_startsWith]

end MBK
